import Mathlib

/-!
Shallow embedding of the jira-wrapped program (src/jira_handler.py, src/main.py,
src/logging_utils.py, src/config.py) and proofs about it.

Modelling conventions:
* Python dicts are association lists built with `dinsert` (replace-on-existing-key,
  append-on-new-key), looked up with `dget`; `len` of such a dict is the list length
  (the keys are distinct by construction).
* Dates (`datetime.date` values, obtained from ISO resolution-date strings) are
  modelled as integers; the only operation the code performs on them is `<`.
* The JIRA client is modelled by the data it returns: `search_issues` with the fixed
  JQL query is a list of issues in the order the tracker returns them, and
  `jira_client.issue(key)` is a function from keys to either a fetched issue's
  custom-field set or a `JIRAError` (modelled as its message string).
* Python exceptions are modelled with `Except PyErr`.
-/

namespace JiraWrapped

/-! ## Python dict model -/

/-- Lookup in a Python-dict association list (`d[k]` / `k in d`). -/
def dget {α : Type} : List (String × α) → String → Option α
  | [], _ => none
  | (k', v') :: rest, k => if k' = k then some v' else dget rest k

/-- Python dict assignment `d[k] = v`: replaces the value if the key is present,
otherwise appends the new entry. -/
def dinsert {α : Type} : List (String × α) → String → α → List (String × α)
  | [], k, v => [(k, v)]
  | (k', v') :: rest, k, v =>
    if k' = k then (k, v) :: rest else (k', v') :: dinsert rest k v

@[simp]
theorem dget_nil {α : Type} (k : String) : dget ([] : List (String × α)) k = none := rfl

@[simp]
theorem dget_cons {α : Type} (k' : String) (v' : α) (rest : List (String × α)) (k : String) :
    dget ((k', v') :: rest) k = if k' = k then some v' else dget rest k := rfl

@[simp]
theorem dinsert_nil {α : Type} (k : String) (v : α) :
    dinsert ([] : List (String × α)) k v = [(k, v)] := rfl

@[simp]
theorem dget_dinsert_self {α : Type} (d : List (String × α)) (k : String) (v : α) :
    dget (dinsert d k v) k = some v := by
  induction d with
  | nil => simp [dinsert, dget]
  | cons p rest ih =>
    obtain ⟨k', v'⟩ := p
    by_cases h : k' = k
    · simp [dinsert, dget, h]
    · simp [dinsert, dget, h, ih]

theorem dget_dinsert {α : Type} (d : List (String × α)) (k k' : String) (v : α) :
    dget (dinsert d k v) k' = if k = k' then some v else dget d k' := by
  induction d with
  | nil =>
    by_cases h : k = k' <;> simp [dinsert, dget, h]
  | cons p rest ih =>
    obtain ⟨k₀, v₀⟩ := p
    by_cases h₀ : k₀ = k
    · subst h₀
      by_cases h : k₀ = k' <;> simp [dinsert, dget, h]
    · by_cases h : k₀ = k'
      · subst h
        have hkk : ¬ k = k₀ := fun hc => h₀ hc.symm
        simp [dinsert, dget, h₀, hkk]
      · simp [dinsert, dget, h₀, h, ih]

/-- Every entry of `dinsert d k v` is either the new entry or an entry of `d`. -/
theorem mem_dinsert {α : Type} (d : List (String × α)) (k : String) (v : α)
    (p : String × α) (hp : p ∈ dinsert d k v) : p = (k, v) ∨ p ∈ d := by
  induction d with
  | nil => simpa [dinsert] using hp
  | cons q rest ih =>
    obtain ⟨k₀, v₀⟩ := q
    by_cases h₀ : k₀ = k
    · rw [dinsert, if_pos h₀, List.mem_cons] at hp
      rcases hp with h | h
      · exact Or.inl h
      · exact Or.inr (List.mem_cons_of_mem _ h)
    · rw [dinsert, if_neg h₀, List.mem_cons] at hp
      rcases hp with h | h
      · exact Or.inr (by rw [h]; exact List.mem_cons_self _ _)
      · rcases ih h with h' | h'
        · exact Or.inl h'
        · exact Or.inr (List.mem_cons_of_mem _ h')

/-- The key list of `dinsert`: unchanged when the key is already present,
the key is appended otherwise. -/
theorem keys_dinsert {α : Type} (d : List (String × α)) (k : String) (v : α) :
    (dinsert d k v).map Prod.fst =
      if k ∈ d.map Prod.fst then d.map Prod.fst else d.map Prod.fst ++ [k] := by
  induction d with
  | nil => simp [dinsert]
  | cons q rest ih =>
    obtain ⟨k₀, v₀⟩ := q
    by_cases h₀ : k₀ = k
    · subst h₀
      simp [dinsert]
    · have hne : ¬ k = k₀ := fun hc => h₀ hc.symm
      by_cases hmem : k ∈ rest.map Prod.fst
      · simp [dinsert, h₀, ih, hmem, hne]
      · simp [dinsert, h₀, ih, hmem, hne]

/-- A present key has an entry witnessing its `dget` value. -/
theorem dget_mem_of_key_mem {α : Type} (d : List (String × α)) (k : String)
    (h : k ∈ d.map Prod.fst) : ∃ v, dget d k = some v ∧ (k, v) ∈ d := by
  induction d with
  | nil => simp at h
  | cons q rest ih =>
    obtain ⟨k₀, v₀⟩ := q
    by_cases h₀ : k₀ = k
    · subst h₀
      exact ⟨v₀, by simp [dget], List.mem_cons_self _ _⟩
    · have hmem : k ∈ rest.map Prod.fst := by
        rcases List.mem_map.mp h with ⟨p, hp, hpk⟩
        rcases List.mem_cons.mp hp with h' | h'
        · rw [h'] at hpk
          exact absurd hpk h₀
        · exact List.mem_map.mpr ⟨p, h', hpk⟩
      rcases ih hmem with ⟨v, hv, hvm⟩
      exact ⟨v, by simp [dget, h₀, hv], List.mem_cons_of_mem _ hvm⟩

/-- A key whose `dget` is `none` is absent from the key list. -/
theorem key_not_mem_of_dget_none {α : Type} (d : List (String × α)) (k : String)
    (h : dget d k = none) : k ∉ d.map Prod.fst := by
  intro hmem
  rcases dget_mem_of_key_mem d k hmem with ⟨v, hv, _⟩
  rw [h] at hv
  exact Option.noConfusion hv

/-! ## Python error values -/

/-- The Python exceptions the modelled code can raise. `JIRAError`s coming out of
the client are modelled as message strings and only ever wrapped. -/
inductive PyErr : Type where
  | valueError (msg : String)
  | notImplementedError (msg : String)
  | keyError (key : String)
deriving DecidableEq, Repr

/-! ## Issues and the tracker -/

/-- A completed issue as returned by `jira_client.search_issues`. The
`resolutiondate` is the parsed `issue.fields.resolutiondate` as a date (an integer
here); `fields` holds the issue's custom fields as a map from the tracker-internal
field id to the field's value, so `hasattr issue.fields cfid` is `dget fields cfid
≠ none` and `getattr` is `dget`. -/
structure JiraIssue : Type where
  key : String
  resolutiondate : Int
  summary : String
  description : String
  fields : List (String × String)
deriving DecidableEq, Repr

/-- Model of `getattr(x.fields, a) if hasattr(x.fields, a) else d`. -/
def getattrD (fields : List (String × String)) (attr dflt : String) : String :=
  (dget fields attr).getD dflt

/-- A field descriptor from `jira_client.fields()` after the `field["custom"]`
filter applied in `get_custom_fields_available` (so all fields here are custom). -/
structure JField : Type where
  id : String
  name : String
deriving DecidableEq, Repr

/-! ## Configuration (src/config.py) -/

/-- IMPORTANT_CUSTOM_FIELDS from src/config.py (same list in src/main.py). -/
def IMPORTANT_CUSTOM_FIELDS : List String :=
  ["Epic Link", "Epic Name", "Story Points", "Dev Days"]

/-! ## get_custom_field_map (src/jira_handler.py lines 67-87) -/

/-- The `ValueError` message raised when the built field map is short. -/
def fieldMapShortfallMsg : String :=
  "Some custom fields were not found in JIRA, "
    ++ "please enable DEBUG to see all custom fields available."

/-- The `for field in self.custom_fields` loop of get_custom_field_map. The state
is the pair of the map under construction and the list of `(id, name)` pairs
emitted by `logger.info` in diagnostic mode. `listCustomFields` is
`cfg.LIST_CUSTOM_FIELDS`. -/
def fieldMapLoop (listCustomFields : Bool) (important : List String) :
    List JField → List (String × String) × List (String × String) →
      List (String × String) × List (String × String)
  | [], st => st
  | field :: rest, st =>
    fieldMapLoop listCustomFields important rest
      (if listCustomFields then (st.1, st.2 ++ [(field.id, field.name)])
       else if field.name ∈ important then (dinsert st.1 field.name field.id, st.2)
       else st)

/-- JiraHandler.get_custom_field_map. `custom_fields` is `self.custom_fields`,
i.e. the tracker's field list already filtered to custom fields by
get_custom_fields_available. Returns the map (or the raised `ValueError` when its
length differs from the tracked-field list's) together with the diagnostic
emissions. -/
def get_custom_field_map (listCustomFields : Bool) (important : List String)
    (custom_fields : List JField) :
    Except PyErr (List (String × String)) × List (String × String) :=
  let st := fieldMapLoop listCustomFields important custom_fields ([], [])
  if st.1.length ≠ important.length then
    (.error (.valueError fieldMapShortfallMsg), st.2)
  else
    (.ok st.1, st.2)

/-- In diagnostic mode the loop only accumulates emissions: the map is untouched
and every field's id and display name is emitted in order. -/
theorem fieldMapLoop_true (important : List String) :
    ∀ (fs : List JField) (st : List (String × String) × List (String × String)),
      fieldMapLoop true important fs st =
        (st.1, st.2 ++ fs.map (fun f => (f.id, f.name))) := by
  intro fs
  induction fs with
  | nil => intro st; simp [fieldMapLoop]
  | cons f rest ih =>
    intro st
    simp [fieldMapLoop, ih]

/-- In normal mode, every entry of the built map is a tracked name mapped to the
id of some input field carrying exactly that display name. -/
theorem fieldMapLoop_false_mem (important : List String) :
    ∀ (fs : List JField) (st : List (String × String) × List (String × String))
      (p : String × String), p ∈ (fieldMapLoop false important fs st).1 →
      p ∈ st.1 ∨ (p.1 ∈ important ∧ ∃ f ∈ fs, f.name = p.1 ∧ f.id = p.2) := by
  intro fs
  induction fs with
  | nil =>
    intro st p hp
    exact Or.inl hp
  | cons f rest ih =>
    intro st p hp
    by_cases hf : f.name ∈ important
    · simp only [fieldMapLoop, if_neg (Bool.false_ne_true), if_pos hf] at hp
      rcases ih _ p hp with h | h
      · rcases mem_dinsert _ _ _ _ h with h' | h'
        · subst h'
          exact Or.inr ⟨hf, f, List.mem_cons_self _ _, rfl, rfl⟩
        · exact Or.inl h'
      · exact Or.inr ⟨h.1, h.2.choose, List.mem_cons_of_mem _ h.2.choose_spec.1,
          h.2.choose_spec.2⟩
    · simp only [fieldMapLoop, if_neg (Bool.false_ne_true), if_neg hf] at hp
      rcases ih _ p hp with h | h
      · exact Or.inl h
      · exact Or.inr ⟨h.1, h.2.choose, List.mem_cons_of_mem _ h.2.choose_spec.1,
          h.2.choose_spec.2⟩

/-- In normal mode the loop preserves distinctness of the map's keys. -/
theorem fieldMapLoop_false_nodup (important : List String) :
    ∀ (fs : List JField) (st : List (String × String) × List (String × String)),
      (st.1.map Prod.fst).Nodup →
      ((fieldMapLoop false important fs st).1.map Prod.fst).Nodup := by
  intro fs
  induction fs with
  | nil => intro st h; exact h
  | cons f rest ih =>
    intro st h
    by_cases hf : f.name ∈ important
    · simp only [fieldMapLoop, if_neg (Bool.false_ne_true), if_pos hf]
      apply ih
      rw [keys_dinsert]
      by_cases hmem : f.name ∈ st.1.map Prod.fst
      · simpa [hmem] using h
      · simp only [hmem, if_neg]
        simp [List.nodup_append, h, hmem]
    · simpa only [fieldMapLoop, if_neg (Bool.false_ne_true), if_neg hf] using ih st h

/-- A tracked name matched by no input field never enters the map. -/
theorem fieldMapLoop_false_key_absent (important : List String) (name : String) :
    ∀ (fs : List JField) (st : List (String × String) × List (String × String)),
      (∀ f ∈ fs, f.name ≠ name) → name ∉ st.1.map Prod.fst →
      name ∉ (fieldMapLoop false important fs st).1.map Prod.fst := by
  intro fs
  induction fs with
  | nil => intro st _ h; exact h
  | cons f rest ih =>
    intro st hfs h
    by_cases hf : f.name ∈ important
    · simp only [fieldMapLoop, if_neg (Bool.false_ne_true), if_pos hf]
      apply ih _ (fun g hg => hfs g (List.mem_cons_of_mem _ hg))
      rw [keys_dinsert]
      by_cases hmem : f.name ∈ st.1.map Prod.fst
      · simpa [hmem] using h
      · have hne : f.name ≠ name := hfs f (List.mem_cons_self _ _)
        simp [hmem, h, Ne.symm hne]
    · simp only [fieldMapLoop, if_neg (Bool.false_ne_true), if_neg hf]
      exact ih _ (fun g hg => hfs g (List.mem_cons_of_mem _ hg)) h

/-! ## get_epic_name (src/jira_handler.py lines 166-193) -/

/-- The `NotImplementedError` message of the "Epic Name" bailout. -/
def epicNameMissingMsg : String :=
  "'Epic Name' field not found in custom field map. Please add it to the IMPORTANT_CUSTOM_FIELDS list."
    ++ "NOTE: 'Epic Name' should come after 'Epic Link' in the IMPORTANT_CUSTOM_FIELDS list."

/-- The `ValueError` message raised in src/jira_handler.py when the per-epic fetch fails. -/
def epicFetchFailMsg (epic_link_value err : String) : String :=
  "Failed to fetch epic name for " ++ epic_link_value ++ ". Error: " ++ err

/-- Model of the final `return self.existing_epic_map[epic_link_value]`: a plain
dict indexing that raises `KeyError` when the key is absent. -/
def finalCacheLookup (cache : List (String × String)) (epic_link_value : String) :
    Except PyErr String :=
  match dget cache epic_link_value with
  | some v => .ok v
  | none => .error (.keyError epic_link_value)

/-- JiraHandler.get_epic_name from src/jira_handler.py. Parameters: `fetchEpic`
models `self.jira_client.issue` (returning the fetched issue's custom-field map or
a `JIRAError`), `cfm` is `self.custom_field_map`, `cache` is
`self.existing_epic_map`. Returns the call's result (value or raised exception),
the cache afterwards, and the number of `jira_client.issue` calls performed
(0 or 1). The membership test `"Epic Name" not in self.custom_field_map` and the
later lookup `self.custom_field_map["Epic Name"]` are combined into one `match`;
on a fetch failure the `JIRAError` is wrapped into a `ValueError` and re-raised. -/
def get_epic_name (fetchEpic : String → Except String (List (String × String)))
    (cfm cache : List (String × String)) (epic_link_value : String) :
    Except PyErr String × List (String × String) × Nat :=
  match dget cfm "Epic Name" with
  | none => (.error (.notImplementedError epicNameMissingMsg), cache, 0)
  | some epic_custom_field_id =>
    if epic_link_value = "" ∨ epic_link_value = "None" then
      (.ok "N/A", cache, 0)
    else
      match dget cache epic_link_value with
      | none =>
        match fetchEpic epic_link_value with
        | .error e =>
          (.error (.valueError (epicFetchFailMsg epic_link_value e)), cache, 1)
        | .ok epicFields =>
          let cache' :=
            dinsert cache epic_link_value (getattrD epicFields epic_custom_field_id "N/A")
          (finalCacheLookup cache' epic_link_value, cache', 1)
      | some _ => (finalCacheLookup cache epic_link_value, cache, 0)

/-- JiraHandler.get_epic_name from src/main.py (lines 168-193). Identical to the
src/jira_handler.py variant except that a `JIRAError` from the fetch is printed
rather than re-raised, after which control falls through to the final
`return self.existing_epic_map[epic_link_value]` on the unmodified cache. -/
def get_epic_name_main (fetchEpic : String → Except String (List (String × String)))
    (cfm cache : List (String × String)) (epic_link_value : String) :
    Except PyErr String × List (String × String) × Nat :=
  match dget cfm "Epic Name" with
  | none => (.error (.notImplementedError epicNameMissingMsg), cache, 0)
  | some epic_custom_field_id =>
    if epic_link_value = "" ∨ epic_link_value = "None" then
      (.ok "N/A", cache, 0)
    else
      match dget cache epic_link_value with
      | none =>
        match fetchEpic epic_link_value with
        | .error _ => (finalCacheLookup cache epic_link_value, cache, 1)
        | .ok epicFields =>
          let cache' :=
            dinsert cache epic_link_value (getattrD epicFields epic_custom_field_id "N/A")
          (finalCacheLookup cache' epic_link_value, cache', 1)
      | some _ => (finalCacheLookup cache epic_link_value, cache, 0)

/-! ## generate_issue_map (src/jira_handler.py lines 89-137) -/

/-- A value stored in an issue record: the fixed "Resolution Date" entry is a
date, everything else is a string. -/
inductive FieldValue : Type where
  | str (s : String)
  | date (d : Int)
deriving DecidableEq, Repr

/-- The per-run issue map: ticket key → issue record. -/
abbrev IssueMap : Type := List (String × List (String × FieldValue))

/-- Model of `issue_map[issue_key][custom_field_name] = value`: update the inner
record dict. The issue key is always present when this runs (its record was
inserted immediately before), so the `none` branch is unreachable; it is
modelled as a no-op. -/
def recordSet (m : IssueMap) (issue_key field_name : String) (v : FieldValue) :
    IssueMap :=
  match dget m issue_key with
  | some record => dinsert m issue_key (dinsert record field_name v)
  | none => m

/-- The `for custom_field_name, custom_field_id in self.custom_field_map.items()`
loop of generate_issue_map for one issue. `entries` runs over the items of `cfm`
in insertion order (Python dict iteration order). For "Epic Name" the value comes
from get_epic_name applied to the issue's "Epic Link" field (defaulted to the
string "None" when absent); `self.custom_field_map["Epic Link"]` raises
`KeyError` when absent. Returns the updated issue map and epic cache, or the
first exception raised. -/
def addCustomFields (fetchEpic : String → Except String (List (String × String)))
    (cfm : List (String × String)) (issue : JiraIssue) :
    List (String × String) → IssueMap → List (String × String) →
      Except PyErr (IssueMap × List (String × String))
  | [], m, cache => .ok (m, cache)
  | (custom_field_name, custom_field_id) :: entries, m, cache =>
    if custom_field_name = "Epic Name" then
      match dget cfm "Epic Link" with
      | none => .error (.keyError "Epic Link")
      | some epic_link_custom_field_id =>
        match get_epic_name fetchEpic cfm cache
            (getattrD issue.fields epic_link_custom_field_id "None") with
        | (.error e, _, _) => .error e
        | (.ok v, cache', _) =>
          addCustomFields fetchEpic cfm issue entries
            (recordSet m issue.key custom_field_name (.str v)) cache'
    else
      addCustomFields fetchEpic cfm issue entries
        (recordSet m issue.key custom_field_name
          (.str (getattrD issue.fields custom_field_id "N/A"))) cache

/-- The per-issue body of generate_issue_map (jira_handler.py lines 112-135):
insert the record with the fixed fields, then fill in each tracked custom
field. -/
def buildIssueRecord (fetchEpic : String → Except String (List (String × String)))
    (cfm : List (String × String)) (issue : JiraIssue) (m : IssueMap)
    (cache : List (String × String)) :
    Except PyErr (IssueMap × List (String × String)) :=
  addCustomFields fetchEpic cfm issue cfm
    (dinsert m issue.key
      [("Title", FieldValue.str issue.summary),
        ("Description", FieldValue.str issue.description),
        ("Resolution Date", FieldValue.date issue.resolutiondate)])
    cache

/-- The `for issue in issues` loop over one fetched page: sets `past_anchor`
(the returned Bool) and stops at the first issue resolved strictly before the
anchor date. -/
def processIssues (fetchEpic : String → Except String (List (String × String)))
    (cfm : List (String × String)) (anchor : Int) :
    List JiraIssue → IssueMap → List (String × String) →
      Except PyErr (IssueMap × List (String × String) × Bool)
  | [], m, cache => .ok (m, cache, false)
  | issue :: rest, m, cache =>
    if issue.resolutiondate < anchor then .ok (m, cache, true)
    else
      match buildIssueRecord fetchEpic cfm issue m cache with
      | .error e => .error e
      | .ok (m', cache') => processIssues fetchEpic cfm anchor rest m' cache'

/-- `max_issues_pulled_at_a_time` from generate_issue_map. -/
def max_issues_pulled_at_a_time : Nat := 50

/-- The `while not past_anchor` pagination loop of generate_issue_map.
`searchResult` is the tracker's full result set for the fixed JQL query in the
order returned, so the page fetched at `start_index` is
`searchResult[start_index : start_index + 50]`. The source loop's only exit is
`past_anchor`, so the embedding is fuel-indexed: `none` means the loop is still
running after `fuel` iterations, `some r` that it returned (or raised) `r`. -/
def generateIssueMapLoop (fetchEpic : String → Except String (List (String × String)))
    (cfm : List (String × String)) (anchor : Int) (searchResult : List JiraIssue) :
    Nat → Nat → IssueMap → List (String × String) →
      Option (Except PyErr (IssueMap × List (String × String)))
  | 0, _, _, _ => none
  | fuel + 1, start_index, m, cache =>
    match processIssues fetchEpic cfm anchor
        ((searchResult.drop start_index).take max_issues_pulled_at_a_time) m cache with
    | .error e => some (.error e)
    | .ok (m', cache', past_anchor) =>
      if past_anchor then some (.ok (m', cache'))
      else
        generateIssueMapLoop fetchEpic cfm anchor searchResult fuel
          (start_index + max_issues_pulled_at_a_time) m' cache'

/-- JiraHandler.generate_issue_map: the pagination loop started at
`start_index = 0` with an empty issue map and the run's epic cache (empty at the
start of `execute`). -/
def generate_issue_map (fetchEpic : String → Except String (List (String × String)))
    (cfm : List (String × String)) (anchor : Int) (searchResult : List JiraIssue)
    (fuel : Nat) : Option (Except PyErr (IssueMap × List (String × String))) :=
  generateIssueMapLoop fetchEpic cfm anchor searchResult fuel 0 [] []

/-! ## Theorems about generate_issue_map -/

/-- Helper for C1: with a single-issue result set resolved on/after the anchor,
every iteration of the pagination loop processes its page without crossing the
anchor and recurses, from any start index and state, so no fuel suffices. -/
theorem c1_loop_never_returns (fuel : Nat) :
    ∀ (start : Nat) (m : IssueMap) (cache : List (String × String)),
      generateIssueMapLoop (fun _ => Except.ok [])
        [("Epic Link", "customfield_1"), ("Epic Name", "customfield_2"),
          ("Story Points", "customfield_3"), ("Dev Days", "customfield_4")]
        5 [⟨"ARCH-1", 10, "t1", "d1", []⟩] fuel start m cache = none := by
  induction fuel with
  | zero => intro start m cache; rfl
  | succ n ih =>
    intro start m cache
    cases start with
    | zero =>
      have hpage : (([⟨"ARCH-1", 10, "t1", "d1", []⟩] : List JiraIssue).drop 0).take
          max_issues_pulled_at_a_time = [⟨"ARCH-1", 10, "t1", "d1", []⟩] := rfl
      simp only [generateIssueMapLoop, hpage]
      have hproc : processIssues (fun _ => Except.ok [])
          [("Epic Link", "customfield_1"), ("Epic Name", "customfield_2"),
            ("Story Points", "customfield_3"), ("Dev Days", "customfield_4")]
          5 [⟨"ARCH-1", 10, "t1", "d1", []⟩] m cache =
          .ok (recordSet (recordSet (recordSet (recordSet
            (dinsert m "ARCH-1"
              [("Title", FieldValue.str "t1"), ("Description", FieldValue.str "d1"),
                ("Resolution Date", FieldValue.date 10)])
            "ARCH-1" "Epic Link" (.str "N/A"))
            "ARCH-1" "Epic Name" (.str "N/A"))
            "ARCH-1" "Story Points" (.str "N/A"))
            "ARCH-1" "Dev Days" (.str "N/A"), cache, false) := by
        simp [processIssues, buildIssueRecord, addCustomFields, get_epic_name, getattrD, dget]
      rw [hproc]
      exact ih _ _ _
    | succ s =>
      have hpage : (([⟨"ARCH-1", 10, "t1", "d1", []⟩] : List JiraIssue).drop (s + 1)).take
          max_issues_pulled_at_a_time = [] := by
        simp
      simp only [generateIssueMapLoop, hpage, processIssues]
      exact ih _ _ _

/-- Key membership after a `dinsert`. -/
theorem dget_dinsert_isSome {α : Type} (d : List (String × α)) (k : String) (v : α)
    (k' : String) :
    ((dget (dinsert d k v) k').isSome = true) ↔ (k' = k ∨ (dget d k').isSome = true) := by
  rw [dget_dinsert]
  by_cases h : k = k'
  · simp [h]
  · simp [h, Ne.symm h]

/-- recordSet never adds or removes issue keys. -/
theorem dget_recordSet_isSome (m : IssueMap) (ik fn : String) (v : FieldValue)
    (k : String) : (dget (recordSet m ik fn v) k).isSome = (dget m k).isSome := by
  unfold recordSet
  cases h : dget m ik with
  | none => rfl
  | some record =>
    rw [dget_dinsert]
    by_cases hk : ik = k
    · subst hk
      simp [h]
    · simp [hk]

/-- With "Epic Name" in the field map and a tracker whose single-issue fetch
never fails, get_epic_name always returns a value. -/
theorem get_epic_name_ok (fetchEpic : String → Except String (List (String × String)))
    (cfm : List (String × String)) (en : String)
    (hen : dget cfm "Epic Name" = some en)
    (hfe : ∀ k, ∃ flds, fetchEpic k = Except.ok flds) :
    ∀ (cache : List (String × String)) (key : String),
      ∃ v cache' n, get_epic_name fetchEpic cfm cache key = (.ok v, cache', n) := by
  intro cache key
  by_cases hkey : key = "" ∨ key = "None"
  · refine ⟨"N/A", cache, 0, ?_⟩
    simp only [get_epic_name, hen]
    rw [if_pos hkey]
  · rcases hc : dget cache key with _ | w
    · rcases hfe key with ⟨flds, hf⟩
      refine ⟨getattrD flds en "N/A", dinsert cache key (getattrD flds en "N/A"), 1, ?_⟩
      simp only [get_epic_name, hen, hc, hf]
      rw [if_neg hkey]
      simp [finalCacheLookup]
    · refine ⟨w, cache, 0, ?_⟩
      simp only [get_epic_name, hen, hc]
      rw [if_neg hkey]
      simp [finalCacheLookup, hc]

/-- With both epic fields mapped and an always-succeeding fetch, the tracked
custom-field loop for one issue completes and changes no issue keys. -/
theorem addCustomFields_ok (fetchEpic : String → Except String (List (String × String)))
    (cfm : List (String × String)) (issue : JiraIssue) (en el : String)
    (hen : dget cfm "Epic Name" = some en) (hel : dget cfm "Epic Link" = some el)
    (hfe : ∀ k, ∃ flds, fetchEpic k = Except.ok flds) :
    ∀ (entries : List (String × String)) (m : IssueMap)
      (cache : List (String × String)),
      ∃ m' cache', addCustomFields fetchEpic cfm issue entries m cache = .ok (m', cache') ∧
        ∀ k, (dget m' k).isSome = (dget m k).isSome := by
  intro entries
  induction entries with
  | nil => intro m cache; exact ⟨m, cache, rfl, fun _ => rfl⟩
  | cons e rest ih =>
    obtain ⟨name, fid⟩ := e
    intro m cache
    by_cases hn : name = "Epic Name"
    · subst hn
      rcases get_epic_name_ok fetchEpic cfm en hen hfe cache
          (getattrD issue.fields el "None") with ⟨v, cache', nn, hge⟩
      rcases ih (recordSet m issue.key "Epic Name" (.str v)) cache' with ⟨m', c'', hrec, hk⟩
      refine ⟨m', c'', ?_, ?_⟩
      · simp [addCustomFields, hel, hge, hrec]
      · intro k
        rw [hk k, dget_recordSet_isSome]
    · rcases ih (recordSet m issue.key name (.str (getattrD issue.fields fid "N/A")))
          cache with ⟨m', c'', hrec, hk⟩
      refine ⟨m', c'', ?_, ?_⟩
      · simp [addCustomFields, hn, hrec]
      · intro k
        rw [hk k, dget_recordSet_isSome]

/-- Building one issue's record completes and adds exactly that issue's key. -/
theorem buildIssueRecord_ok (fetchEpic : String → Except String (List (String × String)))
    (cfm : List (String × String)) (en el : String)
    (hen : dget cfm "Epic Name" = some en) (hel : dget cfm "Epic Link" = some el)
    (hfe : ∀ k, ∃ flds, fetchEpic k = Except.ok flds) (issue : JiraIssue) :
    ∀ (m : IssueMap) (cache : List (String × String)),
      ∃ m' cache', buildIssueRecord fetchEpic cfm issue m cache = .ok (m', cache') ∧
        ∀ k, (dget m' k).isSome = true ↔ (k = issue.key ∨ (dget m k).isSome = true) := by
  intro m cache
  rcases addCustomFields_ok fetchEpic cfm issue en el hen hel hfe cfm
      (dinsert m issue.key
        [("Title", FieldValue.str issue.summary),
          ("Description", FieldValue.str issue.description),
          ("Resolution Date", FieldValue.date issue.resolutiondate)]) cache with
    ⟨m', c', hadd, hk⟩
  refine ⟨m', c', hadd, ?_⟩
  intro k
  rw [hk k, dget_dinsert_isSome]

/-- One page is processed to exactly the records of its issues strictly preceding
the first anchor-crossing issue, with `past_anchor` set iff the page contains
such an issue. -/
theorem processIssues_ok (fetchEpic : String → Except String (List (String × String)))
    (cfm : List (String × String)) (anchor : Int) (en el : String)
    (hen : dget cfm "Epic Name" = some en) (hel : dget cfm "Epic Link" = some el)
    (hfe : ∀ k, ∃ flds, fetchEpic k = Except.ok flds) :
    ∀ (issues : List JiraIssue) (m : IssueMap) (cache : List (String × String)),
      ∃ m' cache',
        processIssues fetchEpic cfm anchor issues m cache =
          .ok (m', cache', issues.any (fun i => decide (i.resolutiondate < anchor))) ∧
        ∀ k, (dget m' k).isSome = true ↔
          (k ∈ (issues.takeWhile (fun i => !decide (i.resolutiondate < anchor))).map
              JiraIssue.key ∨ (dget m k).isSome = true) := by
  intro issues
  induction issues with
  | nil =>
    intro m cache
    exact ⟨m, cache, rfl, fun k => by simp⟩
  | cons issue rest ih =>
    intro m cache
    by_cases hp : issue.resolutiondate < anchor
    · refine ⟨m, cache, ?_, ?_⟩
      · simp [processIssues, hp]
      · intro k
        simp [List.takeWhile_cons, hp]
    · rcases buildIssueRecord_ok fetchEpic cfm en el hen hel hfe issue m cache with
        ⟨m1, c1, hb, hk1⟩
      rcases ih m1 c1 with ⟨m', c', hrec, hk2⟩
      refine ⟨m', c', ?_, ?_⟩
      · simp [processIssues, hp, hb, hrec]
      · intro k
        rw [hk2 k]
        have htw : (issue :: rest).takeWhile (fun i => !decide (i.resolutiondate < anchor)) =
            issue :: rest.takeWhile (fun i => !decide (i.resolutiondate < anchor)) := by
          rw [List.takeWhile_cons]
          simp [hp]
        rw [htw, List.map_cons, List.mem_cons, hk1 k]
        tauto

/-- takeWhile distributes over an append whose first part passes the test. -/
theorem takeWhile_append_of_all {α : Type} (q : α → Bool) (a b : List α)
    (h : ∀ x ∈ a, q x = true) : (a ++ b).takeWhile q = a ++ b.takeWhile q := by
  induction a with
  | nil => simp
  | cons x a' ih =>
    have hx := h x (List.mem_cons_self _ _)
    simp [List.takeWhile_cons, hx, ih (fun y hy => h y (List.mem_cons_of_mem _ hy))]

/-- takeWhile is the identity on a list whose members all pass the test. -/
theorem takeWhile_eq_self_of_all {α : Type} (q : α → Bool) (l : List α)
    (h : ∀ x ∈ l, q x = true) : l.takeWhile q = l := by
  induction l with
  | nil => rfl
  | cons x l' ih =>
    rw [List.takeWhile_cons, if_pos (h x (List.mem_cons_self _ _))]
    rw [ih (fun y hy => h y (List.mem_cons_of_mem _ hy))]

/-- takeWhile never reaches the second part of an append when the first part
contains a failing element. -/
theorem takeWhile_append_of_stop {α : Type} (q : α → Bool) (a b : List α)
    (h : ¬ ∀ x ∈ a, q x = true) : (a ++ b).takeWhile q = a.takeWhile q := by
  induction a with
  | nil => exact absurd (by simp) h
  | cons x a' ih =>
    by_cases hx : q x = true
    · have h' : ¬ ∀ y ∈ a', q y = true := by
        intro hall
        apply h
        intro y hy
        rcases List.mem_cons.mp hy with h1 | h1
        · rw [h1]; exact hx
        · exact hall y h1
      simp [List.takeWhile_cons, hx, ih h']
    · simp [List.takeWhile_cons, hx]

/-- Helper for C2: whenever some issue of the remaining result set crosses the
anchor, the pagination loop terminates with enough fuel, and the issue map gains
exactly the keys of the issues strictly preceding the first crossing issue. -/
theorem c2_loop_terminates (fetchEpic : String → Except String (List (String × String)))
    (cfm : List (String × String)) (anchor : Int) (searchResult : List JiraIssue)
    (en el : String)
    (hen : dget cfm "Epic Name" = some en) (hel : dget cfm "Epic Link" = some el)
    (hfe : ∀ k, ∃ flds, fetchEpic k = Except.ok flds) :
    ∀ (n : Nat) (rest : List JiraIssue) (start : Nat) (m : IssueMap)
      (cache : List (String × String)),
      rest.length ≤ n → rest = searchResult.drop start →
      rest.any (fun i => decide (i.resolutiondate < anchor)) = true →
      ∃ fuel m' cache',
        generateIssueMapLoop fetchEpic cfm anchor searchResult fuel start m cache =
          some (.ok (m', cache')) ∧
        ∀ k, (dget m' k).isSome = true ↔
          (k ∈ (rest.takeWhile (fun i => !decide (i.resolutiondate < anchor))).map
              JiraIssue.key ∨ (dget m k).isSome = true) := by
  intro n
  induction n with
  | zero =>
    intro rest start m cache hlen hdrop hany
    have hnil : rest = [] := List.eq_nil_of_length_eq_zero (Nat.le_zero.mp hlen)
    rw [hnil] at hany
    simp at hany
  | succ n ih =>
    intro rest start m cache hlen hdrop hany
    rcases processIssues_ok fetchEpic cfm anchor en el hen hel hfe (rest.take 50) m cache
      with ⟨m1, c1, hproc, hk1⟩
    have hpage : (searchResult.drop start).take max_issues_pulled_at_a_time =
        rest.take 50 := by
      rw [← hdrop]
      rfl
    by_cases hfirst :
        (rest.take 50).any (fun i => decide (i.resolutiondate < anchor)) = true
    · rw [hfirst] at hproc
      refine ⟨0 + 1, m1, c1, ?_, ?_⟩
      · simp only [generateIssueMapLoop, hpage, hproc]
        simp
      · intro k
        have hstop : ¬ ∀ x ∈ rest.take 50,
            (!decide (x.resolutiondate < anchor)) = true := by
          rcases List.any_eq_true.mp hfirst with ⟨x, hx, hpx⟩
          intro hall
          have hq := hall x hx
          rw [hpx] at hq
          simp at hq
        have hsplit : rest.takeWhile (fun i => !decide (i.resolutiondate < anchor)) =
            (rest.take 50).takeWhile (fun i => !decide (i.resolutiondate < anchor)) := by
          conv_lhs => rw [← List.take_append_drop 50 rest]
          exact takeWhile_append_of_stop _ _ _ hstop
        rw [hsplit]
        exact hk1 k
    · have hpast : (rest.take 50).any (fun i => decide (i.resolutiondate < anchor)) =
          false := by
        simpa using hfirst
      have hall : ∀ x ∈ rest.take 50,
          (!decide (x.resolutiondate < anchor)) = true := by
        intro x hx
        by_contra hc
        exact hfirst (List.any_eq_true.mpr ⟨x, hx, by simpa using hc⟩)
      have hne : rest ≠ [] := by
        rintro rfl
        simp at hany
      have hany' : (rest.drop 50).any (fun i => decide (i.resolutiondate < anchor)) =
          true := by
        rw [← List.take_append_drop 50 rest, List.any_append] at hany
        simp only [Bool.or_eq_true] at hany
        rcases hany with h1 | h1
        · rw [hpast] at h1
          exact Bool.noConfusion h1
        · exact h1
      have hlen' : (rest.drop 50).length ≤ n := by
        have hpos : 0 < rest.length := List.length_pos.mpr hne
        rw [List.length_drop]
        omega
      have hdrop' : rest.drop 50 = searchResult.drop (start + 50) := by
        rw [hdrop, List.drop_drop, Nat.add_comm]
      rcases ih (rest.drop 50) (start + 50) m1 c1 hlen' hdrop' hany' with
        ⟨fuel, m', c', hloop, hk2⟩
      rw [hpast] at hproc
      refine ⟨fuel + 1, m', c', ?_, ?_⟩
      · simp only [generateIssueMapLoop, hpage, hproc]
        simpa [max_issues_pulled_at_a_time] using hloop
      · intro k
        have htws : (rest.take 50).takeWhile
            (fun i => !decide (i.resolutiondate < anchor)) = rest.take 50 :=
          takeWhile_eq_self_of_all _ _ hall
        rw [hk2 k, hk1 k, htws]
        have hsplit : rest.takeWhile (fun i => !decide (i.resolutiondate < anchor)) =
            rest.take 50 ++
              (rest.drop 50).takeWhile (fun i => !decide (i.resolutiondate < anchor)) := by
          conv_lhs => rw [← List.take_append_drop 50 rest]
          exact takeWhile_append_of_all _ _ _ hall
        rw [hsplit]
        simp only [List.map_append, List.mem_append]
        tauto

/-- C2: for a result set with descending resolution dates containing an issue
resolved strictly before the anchor date (and a configured field map plus a
tracker whose per-epic fetch succeeds — the pagination claim's setting),
generate_issue_map terminates, and the returned issue map holds a record exactly
for the keys of the issues strictly preceding the first anchor-crossing issue:
that issue, the rest of its page and all later pages contribute nothing, while
every preceding issue (all resolved on/after the anchor) is recorded. -/
theorem c2_stops_at_first_old_issue
    (fetchEpic : String → Except String (List (String × String)))
    (cfm : List (String × String)) (anchor : Int) (searchResult : List JiraIssue)
    (en el : String)
    (hen : dget cfm "Epic Name" = some en) (hel : dget cfm "Epic Link" = some el)
    (hfe : ∀ k, ∃ flds, fetchEpic k = Except.ok flds)
    (_hdesc : searchResult.Pairwise (fun a b => b.resolutiondate < a.resolutiondate))
    (hold : searchResult.any (fun i => decide (i.resolutiondate < anchor)) = true) :
    ∃ fuel m cache,
      generate_issue_map fetchEpic cfm anchor searchResult fuel = some (.ok (m, cache)) ∧
      ∀ k, (dget m k).isSome = true ↔
        k ∈ (searchResult.takeWhile
          (fun i => !decide (i.resolutiondate < anchor))).map JiraIssue.key := by
  rcases c2_loop_terminates fetchEpic cfm anchor searchResult en el hen hel hfe
      searchResult.length searchResult 0 [] [] le_rfl (by rw [List.drop_zero]) hold with
    ⟨fuel, m, cache, hloop, hk⟩
  refine ⟨fuel, m, cache, hloop, ?_⟩
  intro k
  rw [hk k]
  simp

/-- Witness for C2: two issues (resolved at days 10 and 3) against anchor day 5:
the run terminates and records exactly the first issue. -/
theorem c2_witness :
    ∃ fuel m cache,
      generate_issue_map (fun _ => Except.ok [])
        [("Epic Link", "customfield_1"), ("Epic Name", "customfield_2"),
          ("Story Points", "customfield_3"), ("Dev Days", "customfield_4")]
        5 [⟨"ARCH-1", 10, "t1", "d1", []⟩, ⟨"ARCH-2", 3, "t2", "d2", []⟩] fuel =
        some (.ok (m, cache)) ∧
      ∀ k, (dget m k).isSome = true ↔
        k ∈ (([⟨"ARCH-1", 10, "t1", "d1", []⟩,
          ⟨"ARCH-2", 3, "t2", "d2", []⟩] : List JiraIssue).takeWhile
            (fun i => !decide (i.resolutiondate < 5))).map JiraIssue.key :=
  c2_stops_at_first_old_issue _ _ 5 _ "customfield_2" "customfield_1" rfl rfl
    (fun _ => ⟨[], rfl⟩) (by decide) (by decide)

/-- C1: the pagination loop does not terminate when a fetched page is empty. On a
tracker whose result set (a single issue resolved after the anchor date) is
exhausted without any issue crossing the anchor, generate_issue_map never
returns, whatever iteration bound it is given — it keeps fetching empty pages
forever instead of stopping after the short page. -/
theorem c1_no_empty_page_termination (fuel : Nat) :
    generate_issue_map (fun _ => Except.ok [])
      [("Epic Link", "customfield_1"), ("Epic Name", "customfield_2"),
        ("Story Points", "customfield_3"), ("Dev Days", "customfield_4")]
      5 [⟨"ARCH-1", 10, "t1", "d1", []⟩] fuel = none :=
  c1_loop_never_returns fuel 0 [] []

/-! ## Theorems about get_custom_field_map -/

/-- Unfolded shape of get_custom_field_map in normal mode. -/
theorem get_custom_field_map_false_eq (important : List String)
    (custom_fields : List JField) :
    (get_custom_field_map false important custom_fields).1 =
      if (fieldMapLoop false important custom_fields ([], [])).1.length = important.length
      then .ok (fieldMapLoop false important custom_fields ([], [])).1
      else .error (.valueError fieldMapShortfallMsg) := by
  unfold get_custom_field_map
  by_cases h : (fieldMapLoop false important custom_fields
      ([], ([] : List (String × String)))).1.length = important.length <;> simp [h]

/-- C4 counterexample: with the diagnostic list-all-fields mode enabled — here on
a tracker exposing every tracked field, so normal operation would succeed — the
resolver does not stop cleanly: it falls through to the completeness check and
raises the `ValueError`, contradicting "it does not fail". -/
theorem c4_counterexample :
    (get_custom_field_map true IMPORTANT_CUSTOM_FIELDS
      [⟨"customfield_1", "Epic Link"⟩, ⟨"customfield_2", "Epic Name"⟩,
        ⟨"customfield_3", "Story Points"⟩, ⟨"customfield_4", "Dev Days"⟩]).1 =
      .error (.valueError fieldMapShortfallMsg) := by
  rfl

/-- C4 (amended): when the list-all-fields mode is enabled, the resolver emits
every custom field's identifier and display name in order and builds no map
entries, but it then still runs the completeness check, which raises the
configuration `ValueError` whenever the tracked-field list is nonempty, instead
of returning a map. -/
theorem c4_diagnostic_mode_emits_then_errors (important : List String)
    (custom_fields : List JField) (h : important ≠ []) :
    (get_custom_field_map true important custom_fields).2 =
      custom_fields.map (fun f => (f.id, f.name)) ∧
    (get_custom_field_map true important custom_fields).1 =
      .error (.valueError fieldMapShortfallMsg) := by
  have hloop := fieldMapLoop_true important custom_fields ([], [])
  have h0 : ¬ (0 = important.length) := fun hc =>
    h (List.eq_nil_of_length_eq_zero hc.symm)
  constructor
  · simp [get_custom_field_map, hloop, h0]
  · simp [get_custom_field_map, hloop, h0]

/-- Witness for the amended C4 on a concrete field list. -/
theorem c4_witness :
    (get_custom_field_map true IMPORTANT_CUSTOM_FIELDS
      [⟨"customfield_5", "Sprint"⟩]).2 = [("customfield_5", "Sprint")] ∧
    (get_custom_field_map true IMPORTANT_CUSTOM_FIELDS
      [⟨"customfield_5", "Sprint"⟩]).1 =
      .error (.valueError fieldMapShortfallMsg) :=
  c4_diagnostic_mode_emits_then_errors IMPORTANT_CUSTOM_FIELDS
    [⟨"customfield_5", "Sprint"⟩] (by decide)

/-- C5: in normal mode, get_custom_field_map either returns a complete map — one
entry per tracked field name (distinct keys, all tracked, same count), each
tracked name resolving to the identifier of an input field whose display name
equals that tracked name — or raises the configuration `ValueError` whenever some
tracked name matches no field; no partial map is ever returned. -/
theorem c5_field_map_complete_or_error (important : List String)
    (custom_fields : List JField) (_hnd : important.Nodup) :
    (∀ m, (get_custom_field_map false important custom_fields).1 = .ok m →
      m.length = important.length ∧ (m.map Prod.fst).Nodup ∧
      (∀ p ∈ m, p.1 ∈ important) ∧
      (∀ name ∈ important, ∃ id, dget m name = some id ∧
        ∃ f ∈ custom_fields, f.name = name ∧ f.id = id)) ∧
    ((∃ name ∈ important, ∀ f ∈ custom_fields, f.name ≠ name) →
      ∃ e, (get_custom_field_map false important custom_fields).1 = .error e) := by
  have hmem := fieldMapLoop_false_mem important custom_fields ([], [])
  have hnodup := fieldMapLoop_false_nodup important custom_fields ([], []) (by simp)
  constructor
  · intro m hm
    rw [get_custom_field_map_false_eq] at hm
    by_cases hlen : (fieldMapLoop false important custom_fields
        ([], ([] : List (String × String)))).1.length = important.length
    · rw [if_pos hlen] at hm
      have hm' : (fieldMapLoop false important custom_fields
          ([], ([] : List (String × String)))).1 = m := by
        exact Except.ok.inj hm
      rw [hm'] at hmem hnodup hlen
      have hentry : ∀ p ∈ m, p.1 ∈ important ∧
          ∃ f ∈ custom_fields, f.name = p.1 ∧ f.id = p.2 := by
        intro p hp
        rcases hmem p hp with h0 | h0
        · simp at h0
        · exact h0
      have hsub : m.map Prod.fst ⊆ important := by
        intro x hx
        rcases List.mem_map.mp hx with ⟨p, hp, hpx⟩
        exact hpx ▸ (hentry p hp).1
      have hkeylen : (m.map Prod.fst).length = important.length := by
        simpa using hlen
      have hperm : (m.map Prod.fst).Perm important :=
        (List.subperm_of_subset hnodup hsub).perm_of_length_le (le_of_eq hkeylen.symm)
      refine ⟨hlen, hnodup, fun p hp => (hentry p hp).1, ?_⟩
      intro name hname
      have hkey : name ∈ m.map Prod.fst := hperm.mem_iff.mpr hname
      rcases dget_mem_of_key_mem m name hkey with ⟨id, hdget, hmm⟩
      exact ⟨id, hdget, (hentry (name, id) hmm).2⟩
    · rw [if_neg hlen] at hm
      exact Except.noConfusion hm
  · rintro ⟨name, hnimp, hnone⟩
    have habs : name ∉ (fieldMapLoop false important custom_fields
        ([], ([] : List (String × String)))).1.map Prod.fst :=
      fieldMapLoop_false_key_absent important name custom_fields ([], []) hnone (by simp)
    have hsub : (fieldMapLoop false important custom_fields
        ([], ([] : List (String × String)))).1.map Prod.fst ⊆ important.erase name := by
      intro x hx
      rcases List.mem_map.mp hx with ⟨p, hp, hpx⟩
      rcases hmem p hp with h0 | h0
      · simp at h0
      · have hxi : x ∈ important := hpx ▸ h0.1
        have hxn : x ≠ name := fun hc => habs (hc ▸ hx)
        exact (List.mem_erase_of_ne hxn).mpr hxi
    have hlt : (fieldMapLoop false important custom_fields
        ([], ([] : List (String × String)))).1.length < important.length := by
      have h1 := (List.subperm_of_subset hnodup hsub).length_le
      have h2 : (important.erase name).length = important.length - 1 :=
        List.length_erase_of_mem hnimp
      have h3 : 0 < important.length := List.length_pos_of_mem hnimp
      have h4 : (fieldMapLoop false important custom_fields
          ([], ([] : List (String × String)))).1.length =
          ((fieldMapLoop false important custom_fields
            ([], ([] : List (String × String)))).1.map Prod.fst).length := by
        simp
      omega
    refine ⟨.valueError fieldMapShortfallMsg, ?_⟩
    rw [get_custom_field_map_false_eq, if_neg (by omega)]

/-- Witness for C5 at the configured tracked-field list against a tracker
exposing all four fields. -/
theorem c5_witness :
    (∀ m, (get_custom_field_map false IMPORTANT_CUSTOM_FIELDS
        [⟨"customfield_1", "Epic Link"⟩, ⟨"customfield_2", "Epic Name"⟩,
          ⟨"customfield_3", "Story Points"⟩, ⟨"customfield_4", "Dev Days"⟩]).1 = .ok m →
      m.length = IMPORTANT_CUSTOM_FIELDS.length ∧ (m.map Prod.fst).Nodup ∧
      (∀ p ∈ m, p.1 ∈ IMPORTANT_CUSTOM_FIELDS) ∧
      (∀ name ∈ IMPORTANT_CUSTOM_FIELDS, ∃ id, dget m name = some id ∧
        ∃ f ∈ ([⟨"customfield_1", "Epic Link"⟩, ⟨"customfield_2", "Epic Name"⟩,
          ⟨"customfield_3", "Story Points"⟩, ⟨"customfield_4", "Dev Days"⟩] : List JField),
          f.name = name ∧ f.id = id)) ∧
    ((∃ name ∈ IMPORTANT_CUSTOM_FIELDS,
        ∀ f ∈ ([⟨"customfield_1", "Epic Link"⟩, ⟨"customfield_2", "Epic Name"⟩,
          ⟨"customfield_3", "Story Points"⟩, ⟨"customfield_4", "Dev Days"⟩] : List JField),
          f.name ≠ name) →
      ∃ e, (get_custom_field_map false IMPORTANT_CUSTOM_FIELDS
        [⟨"customfield_1", "Epic Link"⟩, ⟨"customfield_2", "Epic Name"⟩,
          ⟨"customfield_3", "Story Points"⟩, ⟨"customfield_4", "Dev Days"⟩]).1 = .error e) :=
  c5_field_map_complete_or_error IMPORTANT_CUSTOM_FIELDS
    [⟨"customfield_1", "Epic Link"⟩, ⟨"customfield_2", "Epic Name"⟩,
      ⟨"customfield_3", "Story Points"⟩, ⟨"customfield_4", "Dev Days"⟩] (by decide)

/-! ## Theorems about get_epic_name -/

/-- C3: calling `get_epic_name` twice with the same non-empty epic reference
(not "None") within one run performs at most one tracker fetch in total, the
second call returns the same value as the first, and whenever the reference is
already cached the (first) call performs no fetch at all. -/
theorem c3_epic_cache_idempotent
    (fetchEpic : String → Except String (List (String × String)))
    (cfm cache : List (String × String)) (key en v : String)
    (hen : dget cfm "Epic Name" = some en)
    (hne : key ≠ "") (hnn : key ≠ "None")
    (hok : (get_epic_name fetchEpic cfm cache key).1 = .ok v) :
    (get_epic_name fetchEpic cfm (get_epic_name fetchEpic cfm cache key).2.1 key).1 = .ok v ∧
    (get_epic_name fetchEpic cfm cache key).2.2 +
      (get_epic_name fetchEpic cfm (get_epic_name fetchEpic cfm cache key).2.1 key).2.2 ≤ 1 ∧
    (∀ w, dget cache key = some w → (get_epic_name fetchEpic cfm cache key).2.2 = 0) := by
  have hcond : ¬ (key = "" ∨ key = "None") := by
    rintro (h | h)
    · exact hne h
    · exact hnn h
  rcases hc : dget cache key with _ | w
  · rcases hf : fetchEpic key with e | flds
    · exfalso
      simp [get_epic_name, hen, hcond, hc, hf] at hok
    · have h1 : get_epic_name fetchEpic cfm cache key =
          (.ok (getattrD flds en "N/A"),
            dinsert cache key (getattrD flds en "N/A"), 1) := by
        simp [get_epic_name, hen, hcond, hc, hf, finalCacheLookup]
      have h2 : get_epic_name fetchEpic cfm
          (dinsert cache key (getattrD flds en "N/A")) key =
          (.ok (getattrD flds en "N/A"),
            dinsert cache key (getattrD flds en "N/A"), 0) := by
        simp [get_epic_name, hen, hcond, finalCacheLookup]
      rw [h1] at hok
      simp only [h1, h2]
      refine ⟨by rw [← hok], by simp, ?_⟩
      intro w hw
      simp [hc] at hw
  · have h1 : get_epic_name fetchEpic cfm cache key = (.ok w, cache, 0) := by
      simp [get_epic_name, hen, hcond, hc, finalCacheLookup]
    rw [h1] at hok
    simp only [h1]
    refine ⟨by rw [← hok], by simp, ?_⟩
    intro w' hw'
    trivial

/-- Witness for C3 at a concrete scenario: one epic fetched once, second call
returns the cached value. -/
theorem c3_witness :
    (get_epic_name (fun _ => Except.ok [("customfield_2", "Epic Alpha")])
      [("Epic Link", "customfield_1"), ("Epic Name", "customfield_2")]
      (get_epic_name (fun _ => Except.ok [("customfield_2", "Epic Alpha")])
        [("Epic Link", "customfield_1"), ("Epic Name", "customfield_2")]
        [] "EPIC-1").2.1 "EPIC-1").1 = .ok "Epic Alpha" ∧
    (get_epic_name (fun _ => Except.ok [("customfield_2", "Epic Alpha")])
      [("Epic Link", "customfield_1"), ("Epic Name", "customfield_2")]
      [] "EPIC-1").2.2 +
      (get_epic_name (fun _ => Except.ok [("customfield_2", "Epic Alpha")])
        [("Epic Link", "customfield_1"), ("Epic Name", "customfield_2")]
        (get_epic_name (fun _ => Except.ok [("customfield_2", "Epic Alpha")])
          [("Epic Link", "customfield_1"), ("Epic Name", "customfield_2")]
          [] "EPIC-1").2.1 "EPIC-1").2.2 ≤ 1 ∧
    (∀ w, dget ([] : List (String × String)) "EPIC-1" = some w →
      (get_epic_name (fun _ => Except.ok [("customfield_2", "Epic Alpha")])
        [("Epic Link", "customfield_1"), ("Epic Name", "customfield_2")]
        [] "EPIC-1").2.2 = 0) :=
  c3_epic_cache_idempotent _ _ _ _ "customfield_2" "Epic Alpha"
    rfl (by decide) (by decide) rfl

/-- C7: if the tracker fetch inside src/jira_handler.py's get_epic_name fails for
an uncached reference, the call raises a `ValueError` whose message carries the
epic reference and the underlying `JIRAError`, the cache comes back unmodified,
and exactly the one failed fetch happened — since the state is unchanged, a later
call with the same reference takes this same fetch path again (retries). -/
theorem c7_epic_fetch_error_propagates
    (fetchEpic : String → Except String (List (String × String)))
    (cfm cache : List (String × String)) (key en e : String)
    (hen : dget cfm "Epic Name" = some en)
    (hne : key ≠ "") (hnn : key ≠ "None")
    (hc : dget cache key = none) (hf : fetchEpic key = .error e) :
    get_epic_name fetchEpic cfm cache key =
      (.error (.valueError (epicFetchFailMsg key e)), cache, 1) := by
  have hcond : ¬ (key = "" ∨ key = "None") := by
    rintro (h | h)
    · exact hne h
    · exact hnn h
  simp [get_epic_name, hen, hcond, hc, hf]

/-- Witness for C7: a failing fetch for "EPIC-9" raises and leaves the cache as
it was. -/
theorem c7_witness :
    get_epic_name (fun _ => Except.error "503 Service Unavailable")
      [("Epic Name", "customfield_2")] [("EPIC-1", "Epic Alpha")] "EPIC-9" =
      (.error (.valueError (epicFetchFailMsg "EPIC-9" "503 Service Unavailable")),
        [("EPIC-1", "Epic Alpha")], 1) :=
  c7_epic_fetch_error_propagates _ _ _ _ "customfield_2" _
    rfl (by decide) (by decide) rfl rfl

/-- C8: when "Epic Name" is absent from the custom field map, get_epic_name
raises the `NotImplementedError` carrying the instruction message, performs zero
tracker accesses (the bailout precedes any query), and leaves the cache
untouched. -/
theorem c8_missing_epic_name_bailout
    (fetchEpic : String → Except String (List (String × String)))
    (cfm cache : List (String × String)) (key : String)
    (h : dget cfm "Epic Name" = none) :
    get_epic_name fetchEpic cfm cache key =
      (.error (.notImplementedError epicNameMissingMsg), cache, 0) := by
  simp [get_epic_name, h]

/-- Witness for C8: a field map holding only "Epic Link" triggers the bailout
with no fetch. -/
theorem c8_witness :
    get_epic_name (fun _ => Except.ok [])
      [("Epic Link", "customfield_1")] [] "EPIC-1" =
      (.error (.notImplementedError epicNameMissingMsg), [], 0) :=
  c8_missing_epic_name_bailout _ _ _ _ rfl

/-- C9: an empty or literal-"None" epic reference yields the sentinel "N/A" with
zero fetches and an unchanged cache (stated under the "Epic Name" precondition,
whose bailout otherwise fires first). -/
theorem c9_empty_or_none_reference
    (fetchEpic : String → Except String (List (String × String)))
    (cfm cache : List (String × String)) (key en : String)
    (hen : dget cfm "Epic Name" = some en)
    (h : key = "" ∨ key = "None") :
    get_epic_name fetchEpic cfm cache key = (.ok "N/A", cache, 0) := by
  rcases h with h | h <;> subst h <;> simp [get_epic_name, hen]

/-- Witness for C9, covering both the empty and the "None" reference. -/
theorem c9_witness :
    get_epic_name (fun _ => Except.ok [])
      [("Epic Name", "customfield_2")] [("EPIC-1", "Epic Alpha")] "None" =
      (.ok "N/A", [("EPIC-1", "Epic Alpha")], 0) ∧
    get_epic_name (fun _ => Except.ok [])
      [("Epic Name", "customfield_2")] [("EPIC-1", "Epic Alpha")] "" =
      (.ok "N/A", [("EPIC-1", "Epic Alpha")], 0) :=
  ⟨c9_empty_or_none_reference _ _ _ _ "customfield_2" rfl (Or.inr rfl),
    c9_empty_or_none_reference _ _ _ _ "customfield_2" rfl (Or.inl rfl)⟩

/-- C10: in the src/main.py variant of get_epic_name, a tracker error while
fetching an uncached reference is only printed; control then reaches the
unguarded `self.existing_epic_map[epic_link_value]` on the still-missing key, so
the call ends in a `KeyError` (an indexing failure) rather than returning a
degraded "N/A". -/
theorem c10_main_variant_key_error
    (fetchEpic : String → Except String (List (String × String)))
    (cfm cache : List (String × String)) (key en e : String)
    (hen : dget cfm "Epic Name" = some en)
    (hne : key ≠ "") (hnn : key ≠ "None")
    (hc : dget cache key = none) (hf : fetchEpic key = .error e) :
    get_epic_name_main fetchEpic cfm cache key = (.error (.keyError key), cache, 1) := by
  have hcond : ¬ (key = "" ∨ key = "None") := by
    rintro (h | h)
    · exact hne h
    · exact hnn h
  simp [get_epic_name_main, hen, hcond, hc, hf, finalCacheLookup]

/-- Witness for C10: the failing fetch in the main.py variant ends in a KeyError. -/
theorem c10_witness :
    get_epic_name_main (fun _ => Except.error "503 Service Unavailable")
      [("Epic Name", "customfield_2")] [] "EPIC-9" =
      (.error (.keyError "EPIC-9"), [], 1) :=
  c10_main_variant_key_error _ _ _ _ "customfield_2" _
    rfl (by decide) (by decide) rfl rfl

/-! ## FileLoggerFormatter.format (src/logging_utils.py lines 11-36)

Strings are modelled as lists of characters so that lengths and splits are
plain list operations. -/

/-- Whitespace as recognized by Python `str.split()` with no argument (the
characters relevant to log messages). -/
def isSpaceChar (c : Char) : Bool :=
  c = ' ' || c = '\t' || c = '\n' || c = '\r'

/-- Accumulator-based splitter behind `splitWords`; `acc` holds the current word
reversed. -/
def splitWordsAux : List Char → List Char → List (List Char)
  | [], acc => if acc = [] then [] else [acc.reverse]
  | c :: cs, acc =>
    if isSpaceChar c then
      if acc = [] then splitWordsAux cs [] else acc.reverse :: splitWordsAux cs []
    else splitWordsAux cs (c :: acc)

/-- Model of `msg.split()`: split on whitespace runs, dropping empty pieces. -/
def splitWords (cs : List Char) : List (List Char) :=
  splitWordsAux cs []

/-- One iteration of the word-wrap loop (logging_utils.py lines 21-28); the state
is `(lines, current_line)`. -/
def wrapStep (maxLen : Nat) (st : List (List Char) × List Char) (word : List Char) :
    List (List Char) × List Char :=
  if st.2.length + word.length + 1 > maxLen then (st.1 ++ [st.2], word)
  else if st.2 = [] then (st.1, word)
  else (st.1, st.2 ++ ' ' :: word)

/-- The wrap loop over all words plus the trailing
`if current_line: lines.append(current_line)`. `maxLen` is
`cfg.FILE_LOG_LINE_LENGTH`. -/
def wrapLines (maxLen : Nat) (words : List (List Char)) : List (List Char) :=
  let st := words.foldl (wrapStep maxLen) ([], [])
  if st.2 = [] then st.1 else st.1 ++ [st.2]

/-- Model of `"\n".join(lines)`. -/
def joinNl : List (List Char) → List Char
  | [] => []
  | [l] => l
  | l :: rest => l ++ '\n' :: joinNl rest

/-- Model of `s.strip("\n")`: remove newline characters from both ends. -/
def stripNl (cs : List Char) : List Char :=
  ((cs.dropWhile (· == '\n')).reverse.dropWhile (· == '\n')).reverse

/-- FileLoggerFormatter.format applied to an already-rendered record message:
split into words, wrap, join with newlines, strip outer newlines. -/
def formatMessage (maxLen : Nat) (msg : List Char) : List Char :=
  stripNl (joinNl (wrapLines maxLen (splitWords msg)))

/-- Accumulator-based splitter behind `splitNl`. -/
def splitNlAux : List Char → List Char → List (List Char)
  | [], acc => [acc.reverse]
  | c :: cs, acc =>
    if c = '\n' then acc.reverse :: splitNlAux cs [] else splitNlAux cs (c :: acc)

/-- `s.split("\n")`: the lines of a string (empty pieces kept, as in Python). -/
def splitNl (cs : List Char) : List (List Char) :=
  splitNlAux cs []

/-- The lines the formatter emits to the log file for one message. -/
def emittedLines (maxLen : Nat) (msg : List Char) : List (List Char) :=
  splitNl (formatMessage maxLen msg)

/-- Model of joining lines back `"with single spaces re-inserted"` (the claim's
reading of the wrapped output). -/
def joinSpace : List (List Char) → List Char
  | [] => []
  | [l] => l
  | l :: rest => l ++ ' ' :: joinSpace rest

/-! ## Theorems about FileLoggerFormatter.format -/

/-- Words produced by the splitter are nonempty and whitespace-free. -/
theorem splitWordsAux_sound (cs : List Char) : ∀ (acc : List Char),
    (∀ c ∈ acc, isSpaceChar c = false) →
    ∀ w ∈ splitWordsAux cs acc, w ≠ [] ∧ ∀ c ∈ w, isSpaceChar c = false := by
  induction cs with
  | nil =>
    intro acc hacc w hw
    by_cases h : acc = []
    · simp [splitWordsAux, h] at hw
    · simp only [splitWordsAux, if_neg h, List.mem_singleton] at hw
      subst hw
      refine ⟨by simpa using h, ?_⟩
      intro c hc
      exact hacc c (List.mem_reverse.mp hc)
  | cons c cs ih =>
    intro acc hacc w hw
    by_cases hsp : isSpaceChar c = true
    · simp only [splitWordsAux, if_pos hsp] at hw
      by_cases h : acc = []
      · rw [if_pos h] at hw
        exact ih [] (by simp) w hw
      · rw [if_neg h] at hw
        rcases List.mem_cons.mp hw with h1 | h1
        · subst h1
          refine ⟨by simpa using h, ?_⟩
          intro x hx
          exact hacc x (List.mem_reverse.mp hx)
        · exact ih [] (by simp) w h1
    · simp only [splitWordsAux, if_neg hsp] at hw
      refine ih (c :: acc) ?_ w hw
      intro x hx
      rcases List.mem_cons.mp hx with h1 | h1
      · subst h1
        simpa using hsp
      · exact hacc x h1

/-- splitWords yields only nonempty, whitespace-free words. -/
theorem splitWords_sound (cs : List Char) :
    ∀ w ∈ splitWords cs, w ≠ [] ∧ ∀ c ∈ w, isSpaceChar c = false :=
  splitWordsAux_sound cs [] (by simp)

/-- Splitting distributes over a single-space join (auxiliary form). -/
theorem splitWordsAux_append_space (ys : List Char) :
    ∀ (xs acc : List Char), splitWordsAux (xs ++ ' ' :: ys) acc =
      splitWordsAux xs acc ++ splitWords ys := by
  intro xs
  induction xs with
  | nil =>
    intro acc
    by_cases h : acc = []
    · simp [splitWordsAux, splitWords, isSpaceChar, h]
    · simp [splitWordsAux, splitWords, isSpaceChar, h]
  | cons x xs ih =>
    intro acc
    by_cases hsp : isSpaceChar x = true
    · by_cases h : acc = []
      · simp only [List.cons_append, splitWordsAux, if_pos hsp, if_pos h]
        exact ih []
      · simp only [List.cons_append, splitWordsAux, if_pos hsp, if_neg h]
        simp only [List.append_eq]
        rw [ih []]
    · simp only [List.cons_append, splitWordsAux, if_neg hsp]
      exact ih (x :: acc)

/-- Splitting distributes over a single-space join. -/
theorem splitWords_append_space (xs ys : List Char) :
    splitWords (xs ++ ' ' :: ys) = splitWords xs ++ splitWords ys :=
  splitWordsAux_append_space ys xs []

/-- The splitter leaves a whitespace-free chunk whole (auxiliary form). -/
theorem splitWordsAux_no_space (cs : List Char) :
    ∀ (acc : List Char), (∀ c ∈ cs, isSpaceChar c = false) →
      splitWordsAux cs acc =
        if acc.reverse ++ cs = [] then [] else [acc.reverse ++ cs] := by
  induction cs with
  | nil =>
    intro acc _
    by_cases ha : acc = []
    · simp [splitWordsAux, ha]
    · have hrev : acc.reverse ≠ [] := by simpa using ha
      simp [splitWordsAux, ha, hrev]
  | cons c cs ih =>
    intro acc h
    have hc : ¬ isSpaceChar c = true := by
      rw [h c (List.mem_cons_self _ _)]
      simp
    simp only [splitWordsAux, if_neg hc]
    rw [ih (c :: acc) (fun x hx => h x (List.mem_cons_of_mem _ hx))]
    have hacc : (c :: acc).reverse ++ cs = acc.reverse ++ (c :: cs) := by simp
    rw [hacc]

/-- A single nonempty whitespace-free word splits to itself. -/
theorem splitWords_single (w : List Char) (hne : w ≠ [])
    (h : ∀ c ∈ w, isSpaceChar c = false) : splitWords w = [w] := by
  unfold splitWords
  rw [splitWordsAux_no_space w [] h]
  simp [hne]

/-- Splitting a space-join of lines yields the concatenation of the lines'
splits. -/
theorem splitWords_joinSpace (lines : List (List Char)) :
    splitWords (joinSpace lines) = (lines.map splitWords).flatten := by
  induction lines with
  | nil => rfl
  | cons l rest ih =>
    cases rest with
    | nil => simp [joinSpace]
    | cons l2 rest2 =>
      have hj : joinSpace (l :: l2 :: rest2) = l ++ ' ' :: joinSpace (l2 :: rest2) := rfl
      rw [hj, splitWords_append_space, ih]
      simp

/-- Invariant of the wrap loop: every completed line is within the limit or a
single overlong word; lines and the current line are newline-free; the current
line is within the limit or a single word; an empty current line only occurs
while no line has been completed; only the first completed line can be empty. -/
def StInv (maxLen : Nat) (st : List (List Char) × List Char) : Prop :=
  (∀ l ∈ st.1,
    (l.length ≤ maxLen ∨ (splitWords l = [l] ∧ maxLen < l.length)) ∧ '\n' ∉ l) ∧
  '\n' ∉ st.2 ∧
  (st.2.length ≤ maxLen ∨ splitWords st.2 = [st.2]) ∧
  (st.2 = [] → st.1 = []) ∧
  (∀ l ∈ st.1.drop 1, l ≠ [])

/-- The words a wrap state stands for. -/
def stWords (st : List (List Char) × List Char) : List (List Char) :=
  (st.1.map splitWords).flatten ++ splitWords st.2

/-- One wrap step preserves the invariant and appends exactly the new word. -/
theorem wrapStep_preserves (maxLen : Nat) (st : List (List Char) × List Char)
    (w : List Char) (hw : w ≠ []) (hws : ∀ c ∈ w, isSpaceChar c = false)
    (h : StInv maxLen st) :
    StInv maxLen (wrapStep maxLen st w) ∧
    stWords (wrapStep maxLen st w) = stWords st ++ [w] := by
  obtain ⟨hlines, hnl, hcur, hemp, hdrop⟩ := h
  have hwnl : '\n' ∉ w := by
    intro hmem
    have hcontra := hws '\n' hmem
    simp [isSpaceChar] at hcontra
  have hwsingle : splitWords w = [w] := splitWords_single w hw hws
  unfold wrapStep
  by_cases h1 : st.2.length + w.length + 1 > maxLen
  · rw [if_pos h1]
    refine ⟨⟨?_, hwnl, Or.inr hwsingle, fun hwe => absurd hwe hw, ?_⟩, ?_⟩
    · intro l hl
      rcases List.mem_append.mp hl with h2 | h2
      · exact hlines l h2
      · rw [List.mem_singleton] at h2
        subst h2
        refine ⟨?_, hnl⟩
        by_cases h3 : st.2.length ≤ maxLen
        · exact Or.inl h3
        · rcases hcur with h4 | h4
          · exact absurd h4 h3
          · exact Or.inr ⟨h4, by omega⟩
    · intro l hl
      cases hst1 : st.1 with
      | nil =>
        rw [hst1] at hl
        simp at hl
      | cons a t =>
        rw [hst1] at hl
        simp only [List.cons_append, List.drop_succ_cons, List.drop_zero] at hl
        rcases List.mem_append.mp hl with h2 | h2
        · apply hdrop
          rw [hst1]
          simpa using h2
        · rw [List.mem_singleton] at h2
          subst h2
          intro hse
          have hnil := hemp hse
          rw [hst1] at hnil
          exact List.noConfusion hnil
    · unfold stWords
      simp [hwsingle]
  · rw [if_neg h1]
    by_cases h2 : st.2 = []
    · rw [if_pos h2]
      refine ⟨⟨hlines, hwnl, Or.inr hwsingle, fun hwe => absurd hwe hw, hdrop⟩, ?_⟩
      unfold stWords
      rw [h2]
      have hse : splitWords ([] : List Char) = [] := rfl
      simp [hwsingle, hse]
    · rw [if_neg h2]
      refine ⟨⟨hlines, ?_, ?_, ?_, hdrop⟩, ?_⟩
      · intro hmem
        rcases List.mem_append.mp hmem with h3 | h3
        · exact hnl h3
        · rcases List.mem_cons.mp h3 with h4 | h4
          · simp at h4
          · exact hwnl h4
      · left
        simp only [List.length_append, List.length_cons]
        omega
      · intro h3
        simp at h3
      · unfold stWords
        rw [splitWords_append_space]
        simp [hwsingle]

/-- Folding the wrap step over words preserves the invariant and accumulates the
words in order. -/
theorem wrapFold_inv (maxLen : Nat) :
    ∀ (ws : List (List Char)) (st : List (List Char) × List Char),
      (∀ w ∈ ws, w ≠ [] ∧ ∀ c ∈ w, isSpaceChar c = false) →
      StInv maxLen st →
      StInv maxLen (ws.foldl (wrapStep maxLen) st) ∧
      stWords (ws.foldl (wrapStep maxLen) st) = stWords st ++ ws := by
  intro ws
  induction ws with
  | nil => intro st _ h; exact ⟨h, by simp⟩
  | cons w ws ih =>
    intro st hws h
    rcases hws w (List.mem_cons_self _ _) with ⟨hw1, hw2⟩
    rcases wrapStep_preserves maxLen st w hw1 hw2 h with ⟨h1, h2⟩
    rcases ih (wrapStep maxLen st w) (fun x hx => hws x (List.mem_cons_of_mem _ hx))
        h1 with ⟨h3, h4⟩
    refine ⟨by rw [List.foldl_cons]; exact h3, ?_⟩
    rw [List.foldl_cons, h4, h2]
    simp

/-- The final `if current_line: lines.append(current_line)` on an invariant
state yields lines that are within the limit or single overlong words and
newline-free, with only the first possibly empty, a nonempty last line, and
words concatenating to the state's words. -/
theorem wrapFinal_spec (maxLen : Nat) (st : List (List Char) × List Char)
    (h : StInv maxLen st) (lines : List (List Char))
    (hlines : lines = if st.2 = [] then st.1 else st.1 ++ [st.2]) :
    (∀ l ∈ lines,
      (l.length ≤ maxLen ∨ (splitWords l = [l] ∧ maxLen < l.length)) ∧ '\n' ∉ l) ∧
    (∀ l ∈ lines.drop 1, l ≠ []) ∧
    (∀ l, lines.getLast? = some l → l ≠ []) ∧
    (lines.map splitWords).flatten = stWords st := by
  obtain ⟨hl, hn, hc, he, hd⟩ := h
  by_cases h2 : st.2 = []
  · rw [if_pos h2] at hlines
    rw [hlines, he h2]
    refine ⟨by simp, by simp, by simp, ?_⟩
    unfold stWords
    rw [he h2, h2]
    simp [splitWords, splitWordsAux]
  · rw [if_neg h2] at hlines
    subst hlines
    refine ⟨?_, ?_, ?_, ?_⟩
    · intro l hlm
      rcases List.mem_append.mp hlm with h3 | h3
      · exact hl l h3
      · rw [List.mem_singleton] at h3
        subst h3
        refine ⟨?_, hn⟩
        by_cases h4 : st.2.length ≤ maxLen
        · exact Or.inl h4
        · rcases hc with h5 | h5
          · exact absurd h5 h4
          · exact Or.inr ⟨h5, by omega⟩
    · intro l hlm
      cases hst1 : st.1 with
      | nil =>
        rw [hst1] at hlm
        simp at hlm
      | cons a t =>
        rw [hst1] at hlm
        simp only [List.cons_append, List.drop_succ_cons, List.drop_zero] at hlm
        rcases List.mem_append.mp hlm with h3 | h3
        · apply hd
          rw [hst1]
          simpa using h3
        · rw [List.mem_singleton] at h3
          subst h3
          intro hse
          have hnil := he hse
          rw [hst1] at hnil
          exact List.noConfusion hnil
    · intro l hlast
      rw [List.getLast?_concat] at hlast
      have h3 : st.2 = l := Option.some.inj hlast
      rw [← h3]
      exact h2
    · unfold stWords
      simp

/-- The wrapped lines of a message: every line is within the limit or a single
overlong word and newline-free, lines after the first are nonempty, the last
line is nonempty, and the lines' words concatenate back to the message's
words. -/
theorem wrapLines_spec (maxLen : Nat) (msg : List Char) :
    (∀ l ∈ wrapLines maxLen (splitWords msg),
      (l.length ≤ maxLen ∨ (splitWords l = [l] ∧ maxLen < l.length)) ∧ '\n' ∉ l) ∧
    (∀ l ∈ (wrapLines maxLen (splitWords msg)).drop 1, l ≠ []) ∧
    (∀ l, (wrapLines maxLen (splitWords msg)).getLast? = some l → l ≠ []) ∧
    ((wrapLines maxLen (splitWords msg)).map splitWords).flatten = splitWords msg := by
  have hinit : StInv maxLen ([], []) := by
    refine ⟨by simp, by simp, Or.inl (by simp), fun _ => rfl, by simp⟩
  rcases wrapFold_inv maxLen (splitWords msg) ([], []) (splitWords_sound msg) hinit with
    ⟨hinv, hwords⟩
  have hw0 : stWords ([], ([] : List Char)) = [] := by
    simp [stWords, splitWords, splitWordsAux]
  rw [hw0, List.nil_append] at hwords
  rcases wrapFinal_spec maxLen ((splitWords msg).foldl (wrapStep maxLen) ([], []))
      hinv (wrapLines maxLen (splitWords msg)) rfl with ⟨f1, f2, f3, f4⟩
  exact ⟨f1, f2, f3, by rw [f4, hwords]⟩

/-- joinNl unfolds on a cons with nonempty tail. -/
theorem joinNl_cons (l : List Char) (rest : List (List Char)) (h : rest ≠ []) :
    joinNl (l :: rest) = l ++ '\n' :: joinNl rest := by
  cases rest with
  | nil => exact absurd rfl h
  | cons a t => rfl

/-- A member of a list's getLast? is a member of the list. -/
theorem mem_of_getLast?_eq {α : Type} (l : List α) (x : α) (h : l.getLast? = some x) :
    x ∈ l := by
  rcases List.mem_getLast?_eq_getLast h with ⟨hne, hx⟩
  rw [hx]
  exact List.getLast_mem hne

/-- The newline splitter passes over a newline-free chunk, accumulating it. -/
theorem splitNlAux_no_nl : ∀ (l cs acc : List Char), '\n' ∉ l →
    splitNlAux (l ++ cs) acc = splitNlAux cs (l.reverse ++ acc) := by
  intro l
  induction l with
  | nil => intro cs acc _; simp
  | cons c t ih =>
    intro cs acc hl
    have hc : ¬ (c = '\n') := by
      intro hcc
      rw [hcc] at hl
      exact hl (List.mem_cons_self _ _)
    simp only [List.cons_append, splitNlAux, if_neg hc, List.append_eq]
    rw [ih cs (c :: acc) (fun hm => hl (List.mem_cons_of_mem _ hm))]
    congr 1
    simp

/-- Splitting on newlines inverts joining with newlines for nonempty,
newline-free line lists. -/
theorem splitNl_joinNl : ∀ (ls : List (List Char)), ls ≠ [] →
    (∀ l ∈ ls, '\n' ∉ l) → splitNl (joinNl ls) = ls := by
  intro ls
  induction ls with
  | nil => intro h _; exact absurd rfl h
  | cons l rest ih =>
    intro _ h
    cases rest with
    | nil =>
      show splitNl (joinNl [l]) = [l]
      have hj : joinNl [l] = l := rfl
      rw [hj]
      unfold splitNl
      have hsplit := splitNlAux_no_nl l [] [] (h l (List.mem_cons_self _ _))
      rw [List.append_nil] at hsplit
      rw [hsplit]
      simp [splitNlAux]
    | cons l2 rest2 =>
      rw [joinNl_cons l (l2 :: rest2) (by simp)]
      unfold splitNl
      rw [splitNlAux_no_nl l ('\n' :: joinNl (l2 :: rest2)) []
        (h l (List.mem_cons_self _ _))]
      simp only [splitNlAux, if_pos rfl]
      have hrec : splitNlAux (joinNl (l2 :: rest2)) [] = l2 :: rest2 :=
        ih (by simp) (fun x hx => h x (List.mem_cons_of_mem _ hx))
      rw [hrec]
      simp

/-- dropWhile on newlines is the identity when the head is not a newline. -/
theorem dropWhile_nl_eq_self (xs : List Char)
    (h : ∀ c, xs.head? = some c → c ≠ '\n') :
    xs.dropWhile (· == '\n') = xs := by
  cases xs with
  | nil => rfl
  | cons c t =>
    have hc : ¬ ((c == '\n') = true) := by
      have hcn := h c rfl
      simp [hcn]
    simp only [List.dropWhile_cons]
    rw [if_neg hc]

/-- strip("\n") is the identity on a string with no newline at either end. -/
theorem stripNl_eq_self (xs : List Char)
    (h1 : ∀ c, xs.head? = some c → c ≠ '\n')
    (h2 : ∀ c, xs.getLast? = some c → c ≠ '\n') : stripNl xs = xs := by
  unfold stripNl
  rw [dropWhile_nl_eq_self xs h1]
  rw [dropWhile_nl_eq_self xs.reverse ?hrev]
  · simp
  case hrev =>
    intro c hc
    apply h2
    rw [← List.head?_reverse]
    exact hc

/-- strip("\n") swallows a leading newline. -/
theorem stripNl_cons_nl (ys : List Char) : stripNl ('\n' :: ys) = stripNl ys := by
  unfold stripNl
  simp [List.dropWhile_cons]

/-- The head of a newline-join starts with the first line's head. -/
theorem joinNl_head? (l : List Char) (rest : List (List Char)) (hl : l ≠ []) :
    (joinNl (l :: rest)).head? = l.head? := by
  cases rest with
  | nil => rfl
  | cons a t =>
    rw [joinNl_cons _ _ (by simp)]
    cases l with
    | nil => exact absurd rfl hl
    | cons c cs => rfl

/-- The last character of a newline-join of newline-free lines with a nonempty
last line is not a newline. -/
theorem joinNl_getLast_ne_nl : ∀ (ls : List (List Char)),
    (∀ l ∈ ls, '\n' ∉ l) → (∀ l, ls.getLast? = some l → l ≠ []) →
    ∀ c, (joinNl ls).getLast? = some c → c ≠ '\n' := by
  intro ls
  induction ls with
  | nil =>
    intro _ _ c hc
    simp [joinNl] at hc
  | cons l rest ih =>
    intro hnl hlast c hc
    cases rest with
    | nil =>
      have hcl : c ∈ l := mem_of_getLast?_eq l c hc
      intro hcc
      rw [hcc] at hcl
      exact hnl l (List.mem_cons_self _ _) hcl
    | cons a t =>
      rw [joinNl_cons _ _ (by simp)] at hc
      have hjoin_ne : joinNl (a :: t) ≠ [] := by
        cases t with
        | nil =>
          have ha : a ≠ [] := hlast a rfl
          simpa [joinNl] using ha
        | cons b t2 =>
          rw [joinNl_cons _ _ (by simp)]
          simp
      have htail_ne : ('\n' :: joinNl (a :: t)) ≠ [] := by simp
      rw [List.getLast?_append] at hc
      have hc2 : ('\n' :: joinNl (a :: t)).getLast? = some c := by
        cases hg : ('\n' :: joinNl (a :: t)).getLast? with
        | none =>
          exact absurd (List.getLast?_eq_none_iff.mp hg) htail_ne
        | some d =>
          rw [hg] at hc
          simpa using hc
      have hc3 : (joinNl (a :: t)).getLast? = some c := by
        have : ('\n' :: joinNl (a :: t)) = ['\n'] ++ joinNl (a :: t) := rfl
        rw [this, List.getLast?_append] at hc2
        cases hg : (joinNl (a :: t)).getLast? with
        | none => exact absurd (List.getLast?_eq_none_iff.mp hg) hjoin_ne
        | some d =>
          rw [hg] at hc2
          simpa using hc2
      refine ih (fun x hx => hnl x (List.mem_cons_of_mem _ hx)) ?_ c hc3
      intro x hx
      apply hlast
      rw [List.getLast?_cons_cons]
      exact hx

/-- For a good line list with nonempty head, strip("\n") is inert and splitting
recovers the lines. -/
theorem emitted_of_head_ne_nil (l0 : List Char) (rest : List (List Char))
    (hl0 : l0 ≠ []) (hnl : ∀ l ∈ l0 :: rest, '\n' ∉ l)
    (hlast : ∀ l, (l0 :: rest).getLast? = some l → l ≠ []) :
    splitNl (stripNl (joinNl (l0 :: rest))) = l0 :: rest := by
  have hhead : ∀ c, (joinNl (l0 :: rest)).head? = some c → c ≠ '\n' := by
    intro c hc
    rw [joinNl_head? l0 rest hl0] at hc
    have hcl : c ∈ l0 := by
      cases l0 with
      | nil => exact absurd rfl hl0
      | cons a t =>
        have ha : a = c := by simpa using hc
        rw [← ha]
        exact List.mem_cons_self _ _
    intro hcc
    rw [hcc] at hcl
    exact hnl l0 (List.mem_cons_self _ _) hcl
  have hstrip : stripNl (joinNl (l0 :: rest)) = joinNl (l0 :: rest) :=
    stripNl_eq_self _ hhead (joinNl_getLast_ne_nl _ hnl hlast)
  rw [hstrip]
  exact splitNl_joinNl _ (by simp) hnl

/-- The formatter's emitted lines: each is within the limit or a single overlong
word, and their words concatenate back to the message's words. -/
theorem emittedLines_spec (maxLen : Nat) (msg : List Char) :
    (∀ line ∈ emittedLines maxLen msg,
      line.length ≤ maxLen ∨ (splitWords line = [line] ∧ maxLen < line.length)) ∧
    ((emittedLines maxLen msg).map splitWords).flatten = splitWords msg := by
  obtain ⟨f1, f2, f3, f4⟩ := wrapLines_spec maxLen msg
  unfold emittedLines formatMessage
  cases hwl : wrapLines maxLen (splitWords msg) with
  | nil =>
    have hcomp : splitNl (stripNl (joinNl ([] : List (List Char)))) = [[]] := rfl
    rw [hcomp]
    constructor
    · intro line hl
      rw [List.mem_singleton] at hl
      subst hl
      exact Or.inl (by simp)
    · rw [hwl] at f4
      simp only [List.map_nil, List.flatten_nil] at f4
      have hval : (([[]] : List (List Char)).map splitWords).flatten = [] := rfl
      rw [hval]
      exact f4
  | cons l0 rest =>
    have hnl' : ∀ l ∈ l0 :: rest, '\n' ∉ l := by
      intro l hl
      exact (f1 l (by rw [hwl]; exact hl)).2
    have hlast' : ∀ l, (l0 :: rest).getLast? = some l → l ≠ [] := by
      intro l hl
      exact f3 l (by rw [hwl]; exact hl)
    have hlineOk : ∀ l ∈ l0 :: rest,
        l.length ≤ maxLen ∨ (splitWords l = [l] ∧ maxLen < l.length) := by
      intro l hl
      exact (f1 l (by rw [hwl]; exact hl)).1
    rw [hwl] at f4
    by_cases hl0 : l0 = []
    · subst hl0
      cases rest with
      | nil => exact absurd rfl (hlast' [] rfl)
      | cons r rt =>
        have hrne : r ≠ [] := by
          apply f2
          rw [hwl]
          simp
        have hnlrest : ∀ l ∈ r :: rt, '\n' ∉ l :=
          fun l hl => hnl' l (List.mem_cons_of_mem _ hl)
        have hlastrest : ∀ l, (r :: rt).getLast? = some l → l ≠ [] := by
          intro l hl
          apply hlast'
          rw [List.getLast?_cons_cons]
          exact hl
        have hjoin : joinNl ([] :: r :: rt) = '\n' :: joinNl (r :: rt) := by
          rw [joinNl_cons _ _ (by simp)]
          rfl
        rw [hjoin, stripNl_cons_nl]
        have hemit : splitNl (stripNl (joinNl (r :: rt))) = r :: rt :=
          emitted_of_head_ne_nil r rt hrne hnlrest hlastrest
        rw [hemit]
        constructor
        · intro line hl
          exact hlineOk line (List.mem_cons_of_mem _ hl)
        · rw [List.map_cons, List.flatten_cons] at f4
          have hse : splitWords ([] : List Char) = [] := rfl
          rw [hse, List.nil_append] at f4
          exact f4
    · have hemit : splitNl (stripNl (joinNl (l0 :: rest))) = l0 :: rest :=
        emitted_of_head_ne_nil l0 rest hl0 hnl' hlast'
      rw [hemit]
      exact ⟨fun line hl => hlineOk line hl, f4⟩

/-- C6: for every message and max line length, each line the file-log word
wrapper emits has length at most the limit, except that a line may be a single
original word longer than the limit, standing alone and unsplit; and joining the
emitted lines with single spaces yields exactly the original words in their
original order. -/
theorem c6_wordwrap (maxLen : Nat) (msg : List Char) :
    (∀ line ∈ emittedLines maxLen msg,
      line.length ≤ maxLen ∨
        (∃ w ∈ splitWords msg, line = w ∧ maxLen < line.length)) ∧
    splitWords (joinSpace (emittedLines maxLen msg)) = splitWords msg := by
  obtain ⟨h1, h2⟩ := emittedLines_spec maxLen msg
  constructor
  · intro line hl
    rcases h1 line hl with h3 | ⟨h3, h4⟩
    · exact Or.inl h3
    · refine Or.inr ⟨line, ?_, rfl, h4⟩
      rw [← h2]
      refine List.mem_flatten.mpr ⟨splitWords line, ?_, ?_⟩
      · exact List.mem_map.mpr ⟨line, hl, rfl⟩
      · rw [h3]
        exact List.mem_singleton.mpr rfl
  · rw [splitWords_joinSpace]
    exact h2

end JiraWrapped
